import Mathlib

/-!
# JSON Schema Builder: the field tree, its editors and the JSON projection

A shallow embedding of `src/components/DynamicForm.jsx`.

* `Field` is the object built by `generateEmptyField` and edited by the form:
  `key`, `type`, `required`, `children`.
* `handleChange`, `updateChild`, `addChild`, `deleteChild` are the handlers of the
  `Field` component; each one returns the value it hands to `onChange`.
* `updateField`, `addField`, `deleteField` are the handlers of `DynamicForm`; each one
  returns the value it hands to `setFields`.
* `buildJson` is the projection shown in the preview. Its accumulator `result` is a
  JavaScript object created by the literal `{}`; `JObj` records the own properties of
  such an object in creation order together with its prototype link, and `JObj.set`
  is the assignment `result[k] = v`.
-/

namespace DynamicForm

/-! ## Data model -/

/-- One schema node: the object shape produced by `generateEmptyField` (lines 18-23). -/
inductive Field where
  | mk (key : String) (type : String) (required : Bool) (children : List Field)

namespace Field

/-- The `key` property: the field name typed by the user. -/
def key : Field → String
  | mk k _ _ _ => k

/-- The `type` property: the value chosen in the type selector. -/
def type : Field → String
  | mk _ t _ _ => t

/-- The `required` property: the state of the checkbox. -/
def required : Field → Bool
  | mk _ _ r _ => r

/-- The `children` property: the nested fields. -/
def children : Field → List Field
  | mk _ _ _ c => c

end Field

/-- Line 16: `const FIELD_TYPES = ["string", "number", "nested"]`. -/
def FIELD_TYPES : List String := ["string", "number", "nested"]

/-- Lines 18-23: `generateEmptyField = () => ({ key: "", type: "string", required: false,
children: [] })`. -/
def generateEmptyField : Field := Field.mk "" "string" false []

/-! ## Handlers of the `Field` component (lines 26-48) -/

/-- The pair `(prop, value)` with which the three inputs of a `Field` card call
`handleChange`: the name input (line 64), the type selector (line 69) and the
checkbox (line 80). -/
inductive Change where
  | key (value : String)
  | type (value : String)
  | required (value : Bool)

/-- Line 27: the object spread `{ ...field, [prop]: value }`. -/
def spreadWith (field : Field) : Change → Field
  | .key value => Field.mk value field.type field.required field.children
  | .type value => Field.mk field.key value field.required field.children
  | .required value => Field.mk field.key field.type value field.children

/-- Lines 26-32: `handleChange(prop, value)`; the result is the argument of `onChange`.
When `prop === "type" && value !== "nested"` the children of the copy are reset. -/
def handleChange (field : Field) (change : Change) : Field :=
  let updated := spreadWith field change
  match change with
  | .type value =>
    if value ≠ "nested" then Field.mk updated.key updated.type updated.required [] else updated
  | _ => updated

/-- Lines 34-38: `updateChild(index, child)`; the result is the argument of `onChange`.
The assignment `newChildren[index] = child` is modelled for `index` inside the array,
which is where the rendering (line 95) takes its indices from. -/
def updateChild (field : Field) (index : Nat) (child : Field) : Field :=
  Field.mk field.key field.type field.required (field.children.set index child)

/-- Lines 40-42: `addChild()`; the result is the argument of `onChange`. -/
def addChild (field : Field) : Field :=
  Field.mk field.key field.type field.required (field.children ++ [generateEmptyField])

/-- Lines 44-48: `deleteChild(index)`, with `splice(index, 1)` on a copy of the children;
the result is the argument of `onChange`. -/
def deleteChild (field : Field) (index : Nat) : Field :=
  Field.mk field.key field.type field.required (field.children.eraseIdx index)

/-! ## Handlers of `DynamicForm` (lines 114-128) -/

/-- Lines 114-118: `updateField(index, updatedField)`; the result is the argument of
`setFields`. As for `updateChild`, `index` is an index of the array. -/
def updateField (fields : List Field) (index : Nat) (updatedField : Field) : List Field :=
  fields.set index updatedField

/-- Lines 120-122: `addField()`; the result is the argument of `setFields`. -/
def addField (fields : List Field) : List Field :=
  fields ++ [generateEmptyField]

/-- Lines 124-128: `deleteField(index)`, with `splice(index, 1)` on a copy of the fields;
the result is the argument of `setFields`. -/
def deleteField (fields : List Field) (index : Nat) : List Field :=
  fields.eraseIdx index

/-! ## The accumulator of `buildJson`: a JavaScript object -/

mutual
/-- A value stored under a key of the projection: the string
`field.type.toUpperCase()` (line 137) or the object `buildJson(field.children)`
(line 135). -/
inductive JVal where
  | str (s : String)
  | obj (o : JObj)
/-- An object created by the literal `{}` (line 131) and filled by assignments
`result[k] = v` only: its own properties in creation order, and its prototype link,
`none` standing for `Object.prototype` and `some p` for an object `p` installed by the
`__proto__` setter. -/
inductive JObj where
  | mk (props : List (String × JVal)) (proto : Option JObj)
end

namespace JObj

/-- The own properties, in creation order. -/
def props : JObj → List (String × JVal)
  | mk p _ => p

/-- The prototype link. -/
def proto : JObj → Option JObj
  | mk _ q => q

end JObj

/-- Line 131: `const result = {}`. -/
def emptyObject : JObj := JObj.mk [] none

/-- The own-property part of `result[k] = v`: an own property `k` that exists keeps its
place and takes the new value, otherwise a new own property is created after the
existing ones. -/
def putOwn (k : String) (v : JVal) : List (String × JVal) → List (String × JVal)
  | [] => [(k, v)]
  | (k1, v1) :: rest => if k1 = k then (k1, v) :: rest else (k1, v1) :: putOwn k v rest

/-- The assignment `result[k] = v` of lines 135 and 137 on an object of the shape
`JObj`. The key `__proto__` is never an own property of such an object, so the
assignment reaches the accessor `Object.prototype.__proto__`: its setter installs an
object value as the prototype of `result` and ignores a string value; either way no own
property is created. For every other key the prototype chain holds no setter and no
read-only property (it consists of objects of this shape and `Object.prototype`), and
the assignment creates or updates the own property `k`. -/
def JObj.set (o : JObj) (k : String) (v : JVal) : JObj :=
  if k = "__proto__" then
    match v with
    | .obj p => JObj.mk o.props (some p)
    | .str _ => o
  else JObj.mk (putOwn k v o.props) o.proto

/-- Own-property lookup: the value the object itself stores under `k`, which is what
`JSON.stringify` prints for that key. -/
def JObj.getOwn (o : JObj) (k : String) : Option JVal :=
  o.props.lookup k

/-- The numeric value of a list of decimal digits. -/
def digitsValue (cs : List Char) : Nat :=
  cs.foldl (fun n c => 10 * n + (c.toNat - 48)) 0

/-- The array index a property key denotes, if any: the key is the canonical decimal
numeral (digits only, no leading zero except for "0" itself) of an integer below
`2^32 - 1`. -/
def arrayIndex? (k : String) : Option Nat :=
  match k.data with
  | [] => none
  | c :: cs =>
    if (c :: cs).all Char.isDigit ∧ (c ≠ '0' ∨ cs = []) ∧ digitsValue (c :: cs) < 4294967295
    then some (digitsValue (c :: cs)) else none

/-- Insertion of an array-index key into a list of such keys sorted by index. -/
def insertIndexKey (k : String) : List String → List String
  | [] => [k]
  | k1 :: rest =>
    if (arrayIndex? k).getD 0 ≤ (arrayIndex? k1).getD 0 then k :: k1 :: rest
    else k1 :: insertIndexKey k rest

/-- Array-index keys in ascending numeric order. -/
def sortIndexKeys : List String → List String
  | [] => []
  | k :: rest => insertIndexKey k (sortIndexKeys rest)

/-- The keys of an object in the order in which the language enumerates them
(`Object.keys`, `for-in`, and the `JSON.stringify` of line 197): first the own keys that
are array indices, in ascending numeric order, then the other own keys in creation
order. -/
def JObj.ownKeys (o : JObj) : List String :=
  let ks := o.props.map Prod.fst
  sortIndexKeys (ks.filter fun k => (arrayIndex? k).isSome) ++
    ks.filter fun k => (arrayIndex? k).isNone

/-- The method `toUpperCase` of line 137 on ASCII letters, which covers the three
values of `FIELD_TYPES`; other characters are left as they are. -/
def toUpperCase (s : String) : String :=
  String.mk (s.data.map Char.toUpper)

/-! ## The projection (lines 130-141) -/

mutual
/-- Lines 132-139: the loop `fieldsArray.forEach(...)` over the remaining fields,
threading the accumulator `result`. -/
def forEachField : List Field → JObj → JObj
  | [], result => result
  | field :: rest, result => forEachField rest (visitField field result)
/-- Lines 133-138: the body of the loop for one field. `!field.key` holds exactly for
the empty string. -/
def visitField : Field → JObj → JObj
  | Field.mk key type _ children, result =>
    if key = "" then result
    else if type = "nested" then
      result.set key (JVal.obj (forEachField children emptyObject))
    else
      result.set key (JVal.str (toUpperCase type))
end

/-- Lines 130-141: `buildJson(fieldsArray)`. -/
def buildJson (fieldsArray : List Field) : JObj :=
  forEachField fieldsArray emptyObject

/-- The value a single field asks to be stored under its key: the projection of its
children when its type is "nested", its type in upper case otherwise. -/
def projectValue (field : Field) : JVal :=
  if field.type = "nested" then JVal.obj (buildJson field.children)
  else JVal.str (toUpperCase field.type)

/-- The non-empty names of a sequence of fields, in the order of the fields. -/
def names (fields : List Field) : List String :=
  (fields.map Field.key).filter fun k => k ≠ ""

mutual
/-- A field with every `required` flag, its own and those below it, set to `false`. -/
def Field.clearRequired : Field → Field
  | Field.mk key type _ children => Field.mk key type false (clearRequiredAll children)
/-- A sequence of fields with every `required` flag at every depth set to `false`: two
sequences differ only in `required` flags exactly when this maps them to the same
sequence. -/
def clearRequiredAll : List Field → List Field
  | [] => []
  | field :: rest => field.clearRequired :: clearRequiredAll rest
end

/-! ## Paths and the callback chain -/

/-- The field reached from `field` along a relative path of child indices. -/
def descend : List Nat → Field → Option Field
  | [], field => some field
  | i :: p, field =>
    match field.children[i]? with
    | some child => descend p child
    | none => none

/-- The field at a path of the tree: the first index selects a root field, the
following ones descend through `children`. The empty path addresses no field. -/
def fieldAt? (fields : List Field) : List Nat → Option Field
  | [] => none
  | i :: p =>
    match fields[i]? with
    | some field => descend p field
    | none => none

/-- The callback chain below one `Field` card. Line 99 gives the card of child `index`
the callback `(updated) => updateChild(index, updated)`; so when the card at the relative
path below `field` calls its `onChange` with `updated`, the card of `field` calls its own
`onChange` with the value computed here. -/
def bubble : List Nat → Field → Field → Option Field
  | [], _, updated => some updated
  | i :: p, field, updated =>
    match field.children[i]? with
    | some child => (bubble p child updated).map (updateChild field i)
    | none => none

/-- The callback chain from the root. Line 170 gives the card of root field `index` the
callback `(updated) => updateField(index, updated)`; the result is the new value of
`fields` after the card at the path has called its `onChange` with `updated`. -/
def replaceAt (fields : List Field) : List Nat → Field → Option (List Field)
  | [], _ => none
  | i :: p, updated =>
    match fields[i]? with
    | some field => (bubble p field updated).map (updateField fields i)
    | none => none

/-! ## The form as a transition system -/

/-- The controls of one `Field` card. -/
inductive Control where
  /-- The name input, the type selector or the checkbox (lines 61-83). -/
  | input (change : Change)
  /-- The button "+ Add Nested Field" (line 91). -/
  | addNested
  /-- The button "Delete" (line 84). -/
  | delete

/-- What a `Field` card tells its parent: `onChange(updated)` or `onDelete()`. -/
inductive Emit where
  | onChange (updated : Field)
  | onDelete

/-- The values an input can send: any text, any checkbox state, and for the type
selector one of the options of lines 72-76. -/
def offered : Change → Bool
  | .type value => decide (value ∈ FIELD_TYPES)
  | _ => true

/-- A control of the card of `field` itself is used. The nested controls are rendered
only when `field.type === "nested"` (line 89). -/
def press (field : Field) : Control → Option Emit
  | .input change =>
    if offered change then some (Emit.onChange (handleChange field change)) else none
  | .addNested =>
    if field.type = "nested" then some (Emit.onChange (addChild field)) else none
  | .delete => some Emit.onDelete

/-- A control of the card at a relative path below the card of `field` is used. The
cards of the children are rendered only when `field.type === "nested"` (lines 89-103),
with `onChange` wired to `updateChild` and `onDelete` to `deleteChild` (lines 99-100). -/
def fieldCard : List Nat → Field → Control → Option Emit
  | [], field, control => press field control
  | i :: p, field, control =>
    if field.type = "nested" then
      match field.children[i]? with
      | none => none
      | some child =>
        match fieldCard p child control with
        | none => none
        | some (Emit.onChange updated) => some (Emit.onChange (updateChild field i updated))
        | some Emit.onDelete => some (Emit.onChange (deleteChild field i))
    else none

/-- What the user can do with the form. -/
inductive UserEvent where
  /-- The button "+ Add Field" (line 174). -/
  | addField
  /-- A control of the card at a path. -/
  | control (path : List Nat) (control : Control)

/-- The new value of `fields` after a user event, `none` when the form shows no such
control. The root cards have `onChange` wired to `updateField` and `onDelete` to
`deleteField` (lines 170-171). -/
def dispatch (fields : List Field) : UserEvent → Option (List Field)
  | .addField => some (addField fields)
  | .control [] _ => none
  | .control (i :: p) control =>
    match fields[i]? with
    | none => none
    | some field =>
      match fieldCard p field control with
      | none => none
      | some (Emit.onChange updated) => some (updateField fields i updated)
      | some Emit.onDelete => some (deleteField fields i)

/-- The trees the form can reach from its initial state `[generateEmptyField()]`
(line 112). -/
inductive Reachable : List Field → Prop where
  | init : Reachable [generateEmptyField]
  | step (fields fields' : List Field) (event : UserEvent) :
      Reachable fields → dispatch fields event = some fields' → Reachable fields'

mutual
/-- Executable check: the field and every field below it has no children unless its
type is "nested". -/
def Field.tidy : Field → Bool
  | Field.mk _ type _ children => (decide (type = "nested") || children.isEmpty) && allTidy children
/-- Executable check: `Field.tidy` for every field of the sequence. -/
def allTidy : List Field → Bool
  | [] => true
  | field :: rest => field.tidy && allTidy rest
end

/-! ## Vocabulary for the order of the keys -/

/-- A list of characters that is a decimal numeral without a zero in front: digits
only, and the first character, if there is one, is not the digit zero. -/
def plainNumeral (l : List Char) : Prop :=
  (∀ c ∈ l, c.isDigit = true) ∧ ∀ c rest, l = c :: rest → c ≠ '0'

/-- Both keys are array indices and the index of `a` is the smaller one. -/
def indexBefore (a b : String) : Prop :=
  ∃ m n, arrayIndex? a = some m ∧ arrayIndex? b = some n ∧ m < n

/-- An object that received the key `a` before the key `b` also enumerates `a` before
`b`: this fails when `b` is an array index and `a` is not, and when both are array
indices and the index of `b` is not the larger one. -/
def keepsOrder (a b : String) : Bool :=
  match arrayIndex? a, arrayIndex? b with
  | some m, some n => decide (m < n)
  | some _, none => true
  | none, some _ => false
  | none, none => true

/-! ## Theorems -/

/-! ### Readers of the handlers' results -/

@[simp] theorem key_mk (k t : String) (r : Bool) (c : List Field) :
    (Field.mk k t r c).key = k := rfl

@[simp] theorem type_mk (k t : String) (r : Bool) (c : List Field) :
    (Field.mk k t r c).type = t := rfl

@[simp] theorem required_mk (k t : String) (r : Bool) (c : List Field) :
    (Field.mk k t r c).required = r := rfl

@[simp] theorem children_mk (k t : String) (r : Bool) (c : List Field) :
    (Field.mk k t r c).children = c := rfl

/-! ### Adding, deleting, retyping -/

/-- C6: `addField` yields the sequence followed by the empty field
`{key: "", type: "string", required: false, children: []}`, and `addChild` yields the
field with that empty field appended to its children and with `key`, `type` and
`required` unchanged, whatever the type of the field. -/
theorem add_appends_one_empty_field (fields : List Field) (f : Field) :
    addField fields = fields ++ [Field.mk "" "string" false []] ∧
    (addChild f).children = f.children ++ [Field.mk "" "string" false []] ∧
    (addChild f).key = f.key ∧ (addChild f).type = f.type ∧
    (addChild f).required = f.required :=
  ⟨rfl, rfl, rfl, rfl, rfl⟩

/-- C7: deleting the index `len(seq)` from `addField(seq)` gives back `seq`. -/
theorem deleteField_addField (seq : List Field) :
    deleteField (addField seq) seq.length = seq := by
  unfold deleteField addField
  rw [List.eraseIdx_append_of_length_le (Nat.le_refl _)]
  simp

/-- C4: for an index `k` inside a sequence of length `n`, the splice-based delete yields a
sequence of length `n - 1` whose element `j` is the old element `j` for `j < k` and the old
element `j + 1` for `j >= k`; this holds for `deleteField` on the root sequence and for
`deleteChild` on the children of a field, and `deleteChild` leaves `key`, `type` and
`required` of the parent unchanged. -/
theorem delete_shifts_down (fields : List Field) (f : Field) (k : Nat) :
    (k < fields.length →
      (deleteField fields k).length = fields.length - 1 ∧
      (∀ j, j < k → (deleteField fields k)[j]? = fields[j]?) ∧
      (∀ j, k ≤ j → (deleteField fields k)[j]? = fields[j + 1]?)) ∧
    (k < f.children.length →
      (deleteChild f k).children.length = f.children.length - 1 ∧
      (∀ j, j < k → (deleteChild f k).children[j]? = f.children[j]?) ∧
      (∀ j, k ≤ j → (deleteChild f k).children[j]? = f.children[j + 1]?) ∧
      (deleteChild f k).key = f.key ∧ (deleteChild f k).type = f.type ∧
      (deleteChild f k).required = f.required) := by
  refine ⟨fun hk => ⟨?_, ?_, ?_⟩, fun hk => ⟨?_, ?_, ?_, rfl, rfl, rfl⟩⟩
  · exact List.length_eraseIdx_of_lt hk
  · intro j hj
    exact List.getElem?_eraseIdx_of_lt _ _ _ hj
  · intro j hj
    exact List.getElem?_eraseIdx_of_ge _ _ _ hj
  · exact List.length_eraseIdx_of_lt hk
  · intro j hj
    exact List.getElem?_eraseIdx_of_lt _ _ _ hj
  · intro j hj
    exact List.getElem?_eraseIdx_of_ge _ _ _ hj

/-- Witness for C4: deleting index 1 of a three-element root sequence and of a
three-element children list. -/
theorem delete_shifts_down_witness :
    (deleteField [Field.mk "a" "string" false [], Field.mk "b" "number" true [],
        Field.mk "c" "nested" false [generateEmptyField]] 1).length = 3 - 1 ∧
    (deleteChild (Field.mk "p" "nested" true [Field.mk "a" "string" false [],
        Field.mk "b" "number" true [], Field.mk "c" "string" false []]) 1).children[1]? =
      some (Field.mk "c" "string" false []) :=
  ⟨((delete_shifts_down [Field.mk "a" "string" false [], Field.mk "b" "number" true [],
        Field.mk "c" "nested" false [generateEmptyField]] generateEmptyField 1).1
      (by decide)).1,
   ((delete_shifts_down [] (Field.mk "p" "nested" true [Field.mk "a" "string" false [],
        Field.mk "b" "number" true [], Field.mk "c" "string" false []]) 1).2
      (by decide)).2.2.1 1 (Nat.le_refl 1)⟩

/-- C3: for every field `f` and every type value `v` other than "nested", the type edit
`handleChange("type", v)` emits a field of type `v` with no children and with the `key`
and `required` of `f`; committed by `updateField` at an index `i` of a sequence, it is the
field at `i`, so the field at `i` has no children. -/
theorem type_change_clears_children (f : Field) (v : String) (hv : v ≠ "nested") :
    (handleChange f (Change.type v)).type = v ∧
    (handleChange f (Change.type v)).children = [] ∧
    (handleChange f (Change.type v)).key = f.key ∧
    (handleChange f (Change.type v)).required = f.required ∧
    ∀ (fields : List Field) (i : Nat), i < fields.length →
      (updateField fields i (handleChange f (Change.type v)))[i]? =
        some (handleChange f (Change.type v)) ∧
      ((updateField fields i (handleChange f (Change.type v)))[i]?).map Field.children =
        some [] := by
  have h : handleChange f (Change.type v) = Field.mk f.key v f.required [] := by
    simp [handleChange, spreadWith, hv]
  rw [h]
  refine ⟨rfl, rfl, rfl, rfl, ?_⟩
  intro fields i hi
  simp [updateField, hi]

/-- Witness for C3: a nested field with one child, retyped to "string" at index 0 of a
one-element sequence. -/
theorem type_change_clears_children_witness :
    (handleChange (Field.mk "user" "nested" true [Field.mk "age" "number" false []])
        (Change.type "string")).children = [] ∧
    ((updateField [Field.mk "user" "nested" true [Field.mk "age" "number" false []]] 0
        (handleChange (Field.mk "user" "nested" true [Field.mk "age" "number" false []])
          (Change.type "string")))[0]?).map Field.children = some [] :=
  ⟨(type_change_clears_children (Field.mk "user" "nested" true
        [Field.mk "age" "number" false []]) "string" (by decide)).2.1,
   ((type_change_clears_children (Field.mk "user" "nested" true
        [Field.mk "age" "number" false []]) "string" (by decide)).2.2.2.2
      [Field.mk "user" "nested" true [Field.mk "age" "number" false []]] 0 (by decide)).2⟩

/-! ### The projection as a fold -/

theorem visitField_eq (f : Field) (r : JObj) :
    visitField f r = if f.key = "" then r else r.set f.key (projectValue f) := by
  cases f with
  | mk k t q c =>
    simp only [visitField, projectValue, buildJson, key_mk, type_mk, children_mk]
    split
    · rfl
    · split <;> rfl

theorem forEachField_nil (r : JObj) : forEachField [] r = r := by
  simp [forEachField]

theorem forEachField_cons (f : Field) (fs : List Field) (r : JObj) :
    forEachField (f :: fs) r = forEachField fs (visitField f r) := by
  simp [forEachField]

theorem forEachField_append (xs ys : List Field) (r : JObj) :
    forEachField (xs ++ ys) r = forEachField ys (forEachField xs r) := by
  induction xs generalizing r with
  | nil => simp [forEachField_nil]
  | cons x xs ih => simp [forEachField_cons, ih]

theorem forEachField_filter (fs : List Field) (r : JObj) :
    forEachField (fs.filter fun f => f.key ≠ "") r = forEachField fs r := by
  induction fs generalizing r with
  | nil => rfl
  | cons f fs ih =>
    by_cases h : f.key = ""
    · rw [List.filter_cons_of_neg (by simpa using h), ih, forEachField_cons, visitField_eq,
        if_pos h]
    · rw [List.filter_cons_of_pos (by simpa using h), forEachField_cons, ih,
        forEachField_cons]

/-! ### Own keys -/

theorem mem_insertIndexKey (a k : String) (l : List String) :
    a ∈ insertIndexKey k l ↔ a = k ∨ a ∈ l := by
  induction l with
  | nil => simp [insertIndexKey]
  | cons b l ih =>
    simp only [insertIndexKey]
    split
    · simp
    · simp only [List.mem_cons, ih]
      tauto

theorem mem_sortIndexKeys (a : String) (l : List String) :
    a ∈ sortIndexKeys l ↔ a ∈ l := by
  induction l with
  | nil => simp [sortIndexKeys]
  | cons b l ih => simp [sortIndexKeys, mem_insertIndexKey, ih]

theorem mem_ownKeys (o : JObj) (k : String) :
    k ∈ o.ownKeys ↔ k ∈ o.props.map Prod.fst := by
  simp only [JObj.ownKeys, List.mem_append, mem_sortIndexKeys, List.mem_filter]
  cases h : arrayIndex? k <;> simp

theorem keys_putOwn (k : String) (v : JVal) (ps : List (String × JVal)) (a : String) :
    a ∈ (putOwn k v ps).map Prod.fst ↔ a = k ∨ a ∈ ps.map Prod.fst := by
  induction ps with
  | nil => simp [putOwn]
  | cons p ps ih =>
    obtain ⟨k1, v1⟩ := p
    simp only [putOwn]
    split
    · rename_i h
      subst h
      simp
    · simp only [List.map_cons, List.mem_cons, ih]
      tauto

theorem props_set (o : JObj) (k : String) (v : JVal) :
    (o.set k v).props = if k = "__proto__" then o.props else putOwn k v o.props := by
  unfold JObj.set
  split
  · cases v <;> rfl
  · rfl

theorem keys_visitField (f : Field) (r : JObj) (a : String) :
    a ∈ (visitField f r).props.map Prod.fst →
      (a = f.key ∧ f.key ≠ "") ∨ a ∈ r.props.map Prod.fst := by
  rw [visitField_eq]
  split
  · exact Or.inr
  · rename_i h
    rw [props_set]
    split
    · exact Or.inr
    · intro ha
      rcases (keys_putOwn _ _ _ _).1 ha with h1 | h1
      · exact Or.inl ⟨h1, h⟩
      · exact Or.inr h1

theorem keys_forEachField (fs : List Field) (r : JObj) (a : String) :
    a ∈ (forEachField fs r).props.map Prod.fst →
      a ∈ names fs ∨ a ∈ r.props.map Prod.fst := by
  induction fs generalizing r with
  | nil => intro h; exact Or.inr (by simpa [forEachField_nil] using h)
  | cons f fs ih =>
    intro h
    rw [forEachField_cons] at h
    rcases ih _ h with h1 | h1
    · left
      simp only [names, List.map_cons, List.mem_filter] at h1 ⊢
      exact ⟨List.mem_cons_of_mem _ h1.1, h1.2⟩
    · rcases keys_visitField _ _ _ h1 with ⟨h2, h3⟩ | h2
      · left
        simp only [names, List.map_cons, List.mem_filter]
        subst h2
        exact ⟨List.mem_cons_self _ _, by simpa using h3⟩
      · exact Or.inr h2

/-- C2: a field whose name is empty contributes nothing to the projection: `buildJson`
of a sequence equals `buildJson` of the sequence with every empty-name field removed,
and the empty string is never a key of the result. -/
theorem unnamed_fields_are_skipped (seq : List Field) :
    buildJson seq = buildJson (seq.filter fun f => f.key ≠ "") ∧
    "" ∉ (buildJson seq).ownKeys ∧ (buildJson seq).getOwn "" = none := by
  have hk : "" ∉ (buildJson seq).props.map Prod.fst := by
    intro h
    rcases keys_forEachField _ _ _ h with h1 | h1
    · simp [names] at h1
    · simp [emptyObject, JObj.props] at h1
  refine ⟨(forEachField_filter seq emptyObject).symm, ?_, ?_⟩
  · rw [mem_ownKeys]
    exact hk
  · unfold JObj.getOwn
    rw [List.lookup_eq_none_iff]
    intro p hp
    simp only [bne_iff_ne, ne_eq]
    intro hp1
    apply hk
    rw [hp1]
    exact List.mem_map_of_mem _ hp

/-! ### Own-property lookup after the loop -/

theorem lookup_putOwn_same (k : String) (v : JVal) (ps : List (String × JVal)) :
    (putOwn k v ps).lookup k = some v := by
  induction ps with
  | nil => simp [putOwn, List.lookup]
  | cons p ps ih =>
    obtain ⟨k1, v1⟩ := p
    simp only [putOwn]
    split
    · rename_i h
      subst h
      simp [List.lookup]
    · rename_i h
      have hne : (k == k1) = false := by
        simpa using fun h2 : k = k1 => h h2.symm
      simp [List.lookup, hne, ih]

theorem lookup_putOwn_other (k a : String) (v : JVal) (ps : List (String × JVal))
    (h : a ≠ k) : (putOwn k v ps).lookup a = ps.lookup a := by
  induction ps with
  | nil =>
    have hne : (a == k) = false := by simpa using h
    simp [putOwn, List.lookup, hne]
  | cons p ps ih =>
    obtain ⟨k1, v1⟩ := p
    simp only [putOwn]
    split
    · rename_i h1
      subst h1
      have hne : (a == k1) = false := by simpa using h
      simp [List.lookup, hne]
    · simp only [List.lookup]
      split
      · rfl
      · exact ih

theorem getOwn_visitField_same (f : Field) (r : JObj) (h1 : f.key ≠ "")
    (h2 : f.key ≠ "__proto__") : (visitField f r).getOwn f.key = some (projectValue f) := by
  rw [visitField_eq, if_neg h1]
  unfold JObj.getOwn
  rw [props_set, if_neg h2]
  exact lookup_putOwn_same _ _ _

theorem getOwn_visitField_other (f : Field) (r : JObj) (k : String) (h : f.key ≠ k) :
    (visitField f r).getOwn k = r.getOwn k := by
  rw [visitField_eq]
  split
  · rfl
  · unfold JObj.getOwn
    rw [props_set]
    split
    · rfl
    · exact lookup_putOwn_other _ _ _ _ (Ne.symm h)

theorem getOwn_forEachField_other (fs : List Field) (r : JObj) (k : String)
    (h : ∀ g ∈ fs, g.key ≠ k) : (forEachField fs r).getOwn k = r.getOwn k := by
  induction fs generalizing r with
  | nil => rw [forEachField_nil]
  | cons f fs ih =>
    rw [forEachField_cons, ih _ (fun g hg => h g (List.mem_cons_of_mem _ hg)),
      getOwn_visitField_other _ _ _ (h f (List.mem_cons_self _ _))]

/-- Last write wins for every key other than `__proto__`: when `f` is the last field of
the sequence named `k`, the result stores under `k` the value `f` asks for. -/
theorem buildJson_last_wins (before after : List Field) (f : Field)
    (h1 : f.key ≠ "") (h2 : f.key ≠ "__proto__") (hlast : ∀ g ∈ after, g.key ≠ f.key) :
    (buildJson (before ++ f :: after)).getOwn f.key = some (projectValue f) := by
  unfold buildJson
  rw [forEachField_append, forEachField_cons, getOwn_forEachField_other _ _ _ hlast,
    getOwn_visitField_same _ _ h1 h2]

/-! ### Order of the keys -/

theorem keys_putOwn_new (k : String) (v : JVal) (ps : List (String × JVal))
    (h : k ∉ ps.map Prod.fst) : (putOwn k v ps).map Prod.fst = ps.map Prod.fst ++ [k] := by
  induction ps with
  | nil => simp [putOwn]
  | cons p ps ih =>
    obtain ⟨k1, v1⟩ := p
    simp only [List.map_cons, List.mem_cons, not_or] at h
    simp only [putOwn]
    rw [if_neg (fun h3 => h.1 h3.symm)]
    simp [ih h.2]

theorem names_cons (f : Field) (fs : List Field) :
    names (f :: fs) = if f.key = "" then names fs else f.key :: names fs := by
  unfold names
  by_cases h : f.key = ""
  · rw [if_pos h, List.map_cons, List.filter_cons_of_neg (by simpa using h)]
  · rw [if_neg h, List.map_cons, List.filter_cons_of_pos (by simpa using h)]

theorem keys_forEachField_distinct (fs : List Field) (r : JObj)
    (hd : (names fs).Nodup) (hp : "__proto__" ∉ names fs)
    (hr : ∀ k ∈ names fs, k ∉ r.props.map Prod.fst) :
    (forEachField fs r).props.map Prod.fst = r.props.map Prod.fst ++ names fs := by
  induction fs generalizing r with
  | nil => simp [forEachField_nil, names]
  | cons f fs ih =>
    rw [forEachField_cons, visitField_eq]
    rw [names_cons] at hd hp hr ⊢
    by_cases h : f.key = ""
    · simp only [if_pos h] at hd hp hr ⊢
      exact ih r hd hp hr
    · simp only [if_neg h] at hd hp hr ⊢
      rw [List.nodup_cons] at hd
      simp only [List.mem_cons, not_or] at hp
      have hk : (r.set f.key (projectValue f)).props.map Prod.fst =
          r.props.map Prod.fst ++ [f.key] := by
        rw [props_set, if_neg (fun h3 => hp.1 h3.symm)]
        exact keys_putOwn_new _ _ _ (hr _ (List.mem_cons_self _ _))
      rw [ih _ hd.2 hp.2, hk]
      · simp
      · intro k hk1
        rw [hk]
        simp only [List.mem_append, List.mem_singleton, not_or]
        refine ⟨hr k (List.mem_cons_of_mem _ hk1), ?_⟩
        intro h4
        exact hd.1 (h4 ▸ hk1)

theorem keys_buildJson_distinct (fs : List Field) (hd : (names fs).Nodup)
    (hp : "__proto__" ∉ names fs) : (buildJson fs).props.map Prod.fst = names fs := by
  unfold buildJson
  rw [keys_forEachField_distinct fs emptyObject hd hp (by simp [emptyObject, JObj.props])]
  simp [emptyObject, JObj.props]

/-- The enumeration order of the projection for pairwise distinct names other than
`__proto__`: the names that are array indices in ascending numeric order, then the
other names in the order of the fields. -/
theorem ownKeys_buildJson (fs : List Field) (hd : (names fs).Nodup)
    (hp : "__proto__" ∉ names fs) :
    (buildJson fs).ownKeys =
      sortIndexKeys ((names fs).filter fun k => (arrayIndex? k).isSome) ++
        (names fs).filter fun k => (arrayIndex? k).isNone := by
  unfold JObj.ownKeys
  simp only [keys_buildJson_distinct fs hd hp]

theorem nested_value_of_distinct (fs : List Field) (hd : (names fs).Nodup)
    (hp : "__proto__" ∉ names fs) (f : Field) (hf : f ∈ fs) (h1 : f.key ≠ "") :
    (buildJson fs).getOwn f.key = some (projectValue f) := by
  obtain ⟨s, t, rfl⟩ := List.append_of_mem hf
  have hn : names (s ++ f :: t) = names s ++ f.key :: names t := by
    simp only [names, List.map_append, List.filter_append, List.map_cons]
    rw [List.filter_cons_of_pos (by simpa using h1)]
  rw [hn] at hd hp
  have hd2 := (List.nodup_append.1 hd).2.1
  rw [List.nodup_cons] at hd2
  apply buildJson_last_wins s t f h1
  · intro h3
    apply hp
    rw [← h3]
    simp
  · intro g hg hgk
    apply hd2.1
    simp only [names, List.mem_filter, List.mem_map]
    exact ⟨⟨g, hg, hgk⟩, by simpa using h1⟩

/-! ### Array-index keys -/

theorem digitsValue_concat (cs : List Char) (c : Char) :
    digitsValue (cs ++ [c]) = 10 * digitsValue cs + (c.toNat - 48) := by
  simp [digitsValue, List.foldl_append]

theorem isDigit_bounds (c : Char) (h : c.isDigit = true) : 48 ≤ c.toNat ∧ c.toNat ≤ 57 := by
  simp only [Char.isDigit, Bool.and_eq_true, decide_eq_true_eq] at h
  exact ⟨h.1, h.2⟩

theorem digit_eq_of_value_eq (c d : Char) (hc : c.isDigit = true) (hd : d.isDigit = true)
    (h : c.toNat - 48 = d.toNat - 48) : c = d := by
  have h1 := isDigit_bounds c hc
  have h2 := isDigit_bounds d hd
  have h3 : c.toNat = d.toNat := by omega
  rw [← Char.ofNat_toNat c, ← Char.ofNat_toNat d, h3]

theorem foldl_digits_ge (l : List Char) (n : Nat) :
    n ≤ l.foldl (fun n c => 10 * n + (c.toNat - 48)) n := by
  induction l generalizing n with
  | nil => exact Nat.le_refl _
  | cons c l ih =>
    simp only [List.foldl_cons]
    exact Nat.le_trans (by omega) (ih _)

theorem digitsValue_pos (c : Char) (rest : List Char) (hc : c.isDigit = true)
    (h0 : c ≠ '0') : 0 < digitsValue (c :: rest) := by
  have hb := isDigit_bounds c hc
  have hne : c.toNat ≠ 48 := by
    intro h
    apply h0
    rw [← Char.ofNat_toNat c, h]
  have := foldl_digits_ge rest (10 * 0 + (c.toNat - 48))
  simp only [digitsValue, List.foldl_cons]
  omega

theorem plainNumeral_value_pos (l : List Char) (hl : plainNumeral l) (hne : l ≠ []) :
    0 < digitsValue l := by
  cases l with
  | nil => exact absurd rfl hne
  | cons c rest =>
    exact digitsValue_pos c rest (hl.1 c (List.mem_cons_self _ _)) (hl.2 c rest rfl)

theorem plainNumeral_init (l : List Char) (c : Char) (h : plainNumeral (l ++ [c])) :
    plainNumeral l := by
  refine ⟨fun d hd => h.1 d (List.mem_append_left _ hd), ?_⟩
  intro d rest hl
  exact h.2 d (rest ++ [c]) (by rw [hl]; rfl)

theorem plainNumeral_inj (l1 : List Char) : ∀ l2 : List Char, plainNumeral l1 →
    plainNumeral l2 → digitsValue l1 = digitsValue l2 → l1 = l2 := by
  induction l1 using List.reverseRecOn with
  | nil =>
    intro l2 _ h2 hv
    by_contra hne
    have := plainNumeral_value_pos l2 h2 (fun h => hne h.symm)
    have h0 : digitsValue ([] : List Char) = 0 := rfl
    rw [h0] at hv
    omega
  | append_singleton cs c ih =>
    intro l2 h1 h2 hv
    rcases List.eq_nil_or_concat l2 with rfl | ⟨ds, d, rfl⟩
    · have := plainNumeral_value_pos (cs ++ [c]) h1 (by simp)
      have h0 : digitsValue ([] : List Char) = 0 := rfl
      rw [h0] at hv
      omega
    · rw [List.concat_eq_append] at h2 hv ⊢
      rw [digitsValue_concat, digitsValue_concat] at hv
      have hc := isDigit_bounds c (h1.1 c (by simp))
      have hd := isDigit_bounds d (h2.1 d (by simp))
      have hcd : c = d :=
        digit_eq_of_value_eq c d (h1.1 c (by simp)) (h2.1 d (by simp)) (by omega)
      have hcs : cs = ds :=
        ih ds (plainNumeral_init cs c h1) (plainNumeral_init ds d h2) (by omega)
      rw [hcd, hcs]

theorem arrayIndex?_some (k : String) (n : Nat) (h : arrayIndex? k = some n) :
    digitsValue k.data = n ∧ (plainNumeral k.data ∨ k.data = ['0']) ∧ k.data ≠ [] := by
  unfold arrayIndex? at h
  cases hk : k.data with
  | nil => simp [hk] at h
  | cons c cs =>
    rw [hk] at h
    simp only at h
    split at h
    · rename_i hcond
      obtain ⟨hall, hlead, _⟩ := hcond
      refine ⟨by simpa using h, ?_, by simp⟩
      have hall' : ∀ d ∈ c :: cs, d.isDigit = true := by
        simpa [List.all_eq_true] using hall
      by_cases hc0 : c = '0'
      · right
        rcases hlead with h1 | h1
        · exact absurd hc0 h1
        · rw [hc0, h1]
      · left
        refine ⟨hall', ?_⟩
        intro d rest hd
        simp only [List.cons.injEq] at hd
        rw [← hd.1]
        exact hc0
    · simp at h

/-- Two keys that denote the same array index are the same key. -/
theorem arrayIndex?_inj (a b : String) (n : Nat) (ha : arrayIndex? a = some n)
    (hb : arrayIndex? b = some n) : a = b := by
  obtain ⟨hva, hpa, hna⟩ := arrayIndex?_some a n ha
  obtain ⟨hvb, hpb, hnb⟩ := arrayIndex?_some b n hb
  have hdata : a.data = b.data := by
    rcases hpa with hpa | hpa
    · rcases hpb with hpb | hpb
      · exact plainNumeral_inj _ _ hpa hpb (hva.trans hvb.symm)
      · have := plainNumeral_value_pos _ hpa hna
        rw [hpb] at hvb
        have h0 : digitsValue ['0'] = 0 := rfl
        rw [h0] at hvb
        omega
    · rcases hpb with hpb | hpb
      · have := plainNumeral_value_pos _ hpb hnb
        rw [hpa] at hva
        have h0 : digitsValue ['0'] = 0 := rfl
        rw [h0] at hva
        omega
      · rw [hpa, hpb]
  exact String.ext hdata

/-! ### Sorting the array-index keys -/

theorem perm_insertIndexKey (k : String) (l : List String) :
    (insertIndexKey k l).Perm (k :: l) := by
  induction l with
  | nil => exact List.Perm.refl _
  | cons b l ih =>
    simp only [insertIndexKey]
    split
    · exact List.Perm.refl _
    · exact (ih.cons b).trans (List.Perm.swap k b l)

theorem perm_sortIndexKeys (l : List String) : (sortIndexKeys l).Perm l := by
  induction l with
  | nil => exact List.Perm.refl _
  | cons b l ih =>
    simp only [sortIndexKeys]
    exact (perm_insertIndexKey b _).trans (ih.cons b)

theorem rank_sorted_insertIndexKey (k : String) (l : List String)
    (hl : l.Pairwise fun a b => (arrayIndex? a).getD 0 ≤ (arrayIndex? b).getD 0) :
    (insertIndexKey k l).Pairwise
      fun a b => (arrayIndex? a).getD 0 ≤ (arrayIndex? b).getD 0 := by
  induction l with
  | nil => simp [insertIndexKey]
  | cons b l ih =>
    rw [List.pairwise_cons] at hl
    simp only [insertIndexKey]
    split
    · rename_i hkb
      rw [List.pairwise_cons]
      refine ⟨?_, List.pairwise_cons.2 hl⟩
      intro c hc
      rcases List.mem_cons.1 hc with h | h
      · rw [h]
        exact hkb
      · exact Nat.le_trans hkb (hl.1 c h)
    · rename_i hkb
      rw [List.pairwise_cons]
      refine ⟨?_, ih hl.2⟩
      intro c hc
      rcases (mem_insertIndexKey c k l).1 hc with h | h
      · rw [h]
        omega
      · exact hl.1 c h

theorem rank_sorted_sortIndexKeys (l : List String) :
    (sortIndexKeys l).Pairwise
      fun a b => (arrayIndex? a).getD 0 ≤ (arrayIndex? b).getD 0 := by
  induction l with
  | nil => simp [sortIndexKeys]
  | cons b l ih => exact rank_sorted_insertIndexKey b _ ih

theorem sortIndexKeys_of_sorted (l : List String)
    (hl : l.Pairwise fun a b => (arrayIndex? a).getD 0 ≤ (arrayIndex? b).getD 0) :
    sortIndexKeys l = l := by
  induction l with
  | nil => rfl
  | cons b l ih =>
    rw [List.pairwise_cons] at hl
    simp only [sortIndexKeys, ih hl.2]
    cases l with
    | nil => rfl
    | cons c l =>
      simp only [insertIndexKey]
      rw [if_pos (hl.1 c (List.mem_cons_self _ _))]

theorem indexBefore_sortIndexKeys (l : List String) (hd : l.Nodup)
    (hi : ∀ k ∈ l, (arrayIndex? k).isSome = true) :
    (sortIndexKeys l).Pairwise indexBefore := by
  have hperm := perm_sortIndexKeys l
  have hnd : (sortIndexKeys l).Nodup := hperm.nodup_iff.2 hd
  have hboth := (rank_sorted_sortIndexKeys l).and hnd
  refine hboth.imp_of_mem ?_
  intro a b ha hb hab
  obtain ⟨m, hm⟩ := Option.isSome_iff_exists.1 (hi a (hperm.mem_iff.1 ha))
  obtain ⟨n, hn⟩ := Option.isSome_iff_exists.1 (hi b (hperm.mem_iff.1 hb))
  refine ⟨m, n, hm, hn, ?_⟩
  have hle : m ≤ n := by simpa [hm, hn] using hab.1
  have hne : m ≠ n := by
    intro h
    exact hab.2 (arrayIndex?_inj a b m hm (h ▸ hn))
  omega

theorem filter_split_of_keepsOrder (l : List String)
    (h : l.Pairwise fun a b => keepsOrder a b = true) :
    (l.filter fun k => (arrayIndex? k).isSome) ++ (l.filter fun k => (arrayIndex? k).isNone)
      = l := by
  induction l with
  | nil => rfl
  | cons a l ih =>
    rw [List.pairwise_cons] at h
    cases ha : arrayIndex? a with
    | some m =>
      rw [List.filter_cons_of_pos (by simp [ha]), List.filter_cons_of_neg (by simp [ha]),
        List.cons_append, ih h.2]
    | none =>
      have hnone : ∀ b ∈ l, arrayIndex? b = none := by
        intro b hb
        have := h.1 b hb
        cases hb2 : arrayIndex? b with
        | none => rfl
        | some n => simp [keepsOrder, ha, hb2] at this
      have h1 : (l.filter fun k => (arrayIndex? k).isSome) = [] := by
        rw [List.filter_eq_nil_iff]
        intro b hb
        simp [hnone b hb]
      have h2 : (l.filter fun k => (arrayIndex? k).isNone) = l := by
        rw [List.filter_eq_self]
        intro b hb
        simp [hnone b hb]
      rw [List.filter_cons_of_neg (by simp [ha]), List.filter_cons_of_pos (by simp [ha]),
        h1, h2]
      rfl

theorem rank_sorted_of_keepsOrder (l : List String)
    (h : l.Pairwise fun a b => keepsOrder a b = true) :
    (l.filter fun k => (arrayIndex? k).isSome).Pairwise
      fun a b => (arrayIndex? a).getD 0 ≤ (arrayIndex? b).getD 0 := by
  refine (h.sublist (List.filter_sublist l)).imp_of_mem ?_
  intro a b ha hb hab
  obtain ⟨m, hm⟩ := Option.isSome_iff_exists.1 (List.mem_filter.1 ha).2
  obtain ⟨n, hn⟩ := Option.isSome_iff_exists.1 (List.mem_filter.1 hb).2
  simp only [keepsOrder, hm, hn, decide_eq_true_eq] at hab
  simp only [hm, hn, Option.getD_some]
  omega

theorem keepsOrder_of_split (idx rest : List String) (hidx : idx.Pairwise indexBefore)
    (hi : ∀ k ∈ idx, (arrayIndex? k).isSome = true)
    (hr : ∀ k ∈ rest, (arrayIndex? k).isNone = true) :
    (idx ++ rest).Pairwise fun a b => keepsOrder a b = true := by
  rw [List.pairwise_append]
  refine ⟨hidx.imp ?_, ?_, ?_⟩
  · intro a b hab
    obtain ⟨m, n, hm, hn, hlt⟩ := hab
    simp [keepsOrder, hm, hn, hlt]
  · rw [List.pairwise_iff_forall_sublist]
    intro a b hab
    have ha := hr a (hab.subset (by simp))
    have hb := hr b (hab.subset (by simp))
    rw [Option.isNone_iff_eq_none] at ha hb
    simp [keepsOrder, ha, hb]
  · intro a ha b hb
    obtain ⟨m, hm⟩ := Option.isSome_iff_exists.1 (hi a ha)
    have hb2 := hr b hb
    rw [Option.isNone_iff_eq_none] at hb2
    simp [keepsOrder, hm, hb2]

/-! ### The claims on the projection -/

/-- C1 at the name `__proto__`: the only field of the sequence is named `__proto__` and
has type "string", and the result of `buildJson` is the empty object: it stores nothing
under `__proto__` and enumerates no key, where last-write-wins asks for "STRING". -/
theorem buildJson_drops_proto_name :
    buildJson [Field.mk "__proto__" "string" false []] = emptyObject ∧
    (buildJson [Field.mk "__proto__" "string" false []]).getOwn "__proto__" = none ∧
    (buildJson [Field.mk "__proto__" "string" false []]).ownKeys = [] ∧
    projectValue (Field.mk "__proto__" "string" false []) = JVal.str "STRING" :=
  ⟨rfl, rfl, rfl, rfl⟩

/-- The two examples of the specification for duplicate names and for recursion. -/
theorem buildJson_examples :
    buildJson [Field.mk "x" "string" false [], Field.mk "x" "number" false []] =
      JObj.mk [("x", JVal.str "NUMBER")] none ∧
    buildJson [Field.mk "user" "nested" false [Field.mk "age" "number" false []]] =
      JObj.mk [("user", JVal.obj (JObj.mk [("age", JVal.str "NUMBER")] none))] none ∧
    buildJson [Field.mk "" "string" false [], Field.mk "a" "string" false []] =
      JObj.mk [("a", JVal.str "STRING")] none :=
  ⟨rfl, rfl, rfl⟩

/-- C8 as stated fails: the names "b" and "1" are distinct and non-empty, the fields come
in the order "b", "1", and the result enumerates its keys in the order "1", "b". -/
theorem keys_order_counterexample :
    (names [Field.mk "b" "string" false [], Field.mk "1" "string" false []]).Nodup ∧
    names [Field.mk "b" "string" false [], Field.mk "1" "string" false []] = ["b", "1"] ∧
    (buildJson [Field.mk "b" "string" false [], Field.mk "1" "string" false []]).ownKeys =
      ["1", "b"] ∧
    (buildJson [Field.mk "b" "string" false [], Field.mk "1" "string" false []]).ownKeys ≠
      names [Field.mk "b" "string" false [], Field.mk "1" "string" false []] := by
  refine ⟨by decide, rfl, rfl, by decide⟩

/-- C8, amended: for every sequence of fields whose non-empty names are pairwise distinct
and none of them `__proto__`, the keys of the result of `buildJson`, in the order in which
the result enumerates them, are the names that are array indices, in strictly ascending
numeric order, followed by the other names in the order of the fields. So the keys are
the non-empty names in the order of the fields exactly when no name comes after a name
that the object enumerates later (`keepsOrder`), in particular when no name is an array
index. The value stored under the name of a nested field is the `buildJson` of its
children, to which the same statement applies. -/
theorem keys_follow_field_order (fields : List Field)
    (hdistinct : (names fields).Nodup) (hproto : "__proto__" ∉ names fields) :
    (∃ idx, (buildJson fields).ownKeys =
          idx ++ (names fields).filter (fun k => (arrayIndex? k).isNone) ∧
        idx.Perm ((names fields).filter fun k => (arrayIndex? k).isSome) ∧
        idx.Pairwise indexBefore) ∧
    ((buildJson fields).ownKeys = names fields ↔
      (names fields).Pairwise fun a b => keepsOrder a b = true) ∧
    ((∀ k ∈ names fields, arrayIndex? k = none) →
      (buildJson fields).ownKeys = names fields) ∧
    ∀ f ∈ fields, f.key ≠ "" → f.type = "nested" →
      (buildJson fields).getOwn f.key = some (JVal.obj (buildJson f.children)) := by
  have hkeys := ownKeys_buildJson fields hdistinct hproto
  have hsome : ∀ k ∈ (names fields).filter (fun k => (arrayIndex? k).isSome),
      (arrayIndex? k).isSome = true := fun k hk => (List.mem_filter.1 hk).2
  have hnone : ∀ k ∈ (names fields).filter (fun k => (arrayIndex? k).isNone),
      (arrayIndex? k).isNone = true := fun k hk => (List.mem_filter.1 hk).2
  have hsorted := indexBefore_sortIndexKeys _ (hdistinct.filter _) hsome
  have hiff : (buildJson fields).ownKeys = names fields ↔
      (names fields).Pairwise fun a b => keepsOrder a b = true := by
    constructor
    · intro h
      have hk := keepsOrder_of_split _ _ hsorted
        (fun k hk => hsome k ((perm_sortIndexKeys _).mem_iff.1 hk)) hnone
      rw [← hkeys, h] at hk
      exact hk
    · intro h
      rw [hkeys, sortIndexKeys_of_sorted _ (rank_sorted_of_keepsOrder _ h)]
      exact filter_split_of_keepsOrder _ h
  refine ⟨⟨_, hkeys, perm_sortIndexKeys _, hsorted⟩, hiff, ?_, ?_⟩
  · intro hno
    apply hiff.2
    refine (List.pairwise_of_forall (l := names fields) (R := fun _ _ => True)
      (fun _ _ => trivial)).imp_of_mem ?_
    intro a b ha hb _
    simp [keepsOrder, hno a ha, hno b hb]
  · intro f hf h1 h2
    rw [nested_value_of_distinct fields hdistinct hproto f hf h1]
    simp [projectValue, h2]

/-- Witness for C8, amended: the names "1", "2", "b" come in an order the object keeps,
and the keys follow the fields; for the names "b", "2", "10", "1" the index names are
enumerated first, in ascending order, and "b" after them. -/
theorem keys_follow_field_order_witness :
    (buildJson [Field.mk "1" "string" false [], Field.mk "2" "nested" false
        [Field.mk "name" "string" false []], Field.mk "b" "number" true []]).ownKeys =
      names [Field.mk "1" "string" false [], Field.mk "2" "nested" false
        [Field.mk "name" "string" false []], Field.mk "b" "number" true []] ∧
    ∃ idx, (buildJson [Field.mk "b" "string" false [], Field.mk "2" "string" false [],
        Field.mk "10" "number" false [], Field.mk "1" "string" false []]).ownKeys =
          idx ++ ["b"] ∧
        idx.Perm ["2", "10", "1"] ∧ idx.Pairwise indexBefore :=
  ⟨(keys_follow_field_order [Field.mk "1" "string" false [], Field.mk "2" "nested" false
        [Field.mk "name" "string" false []], Field.mk "b" "number" true []]
      (by decide) (by decide)).2.1.2 (by decide),
   (keys_follow_field_order [Field.mk "b" "string" false [], Field.mk "2" "string" false [],
        Field.mk "10" "number" false [], Field.mk "1" "string" false []]
      (by decide) (by decide)).1⟩

mutual
theorem forEachField_clearRequiredAll : ∀ (fs : List Field) (r : JObj),
    forEachField (clearRequiredAll fs) r = forEachField fs r
  | [], _ => rfl
  | f :: fs, r => by
    rw [clearRequiredAll, forEachField_cons, forEachField_cons, visitField_clearRequired f r,
      forEachField_clearRequiredAll fs]
theorem visitField_clearRequired : ∀ (f : Field) (r : JObj),
    visitField f.clearRequired r = visitField f r
  | Field.mk k t q c, r => by
    simp only [Field.clearRequired, visitField]
    rw [forEachField_clearRequiredAll c]
end

/-- C9: two sequences of fields that differ only in `required` flags, at any depth, have
equal projections. -/
theorem required_does_not_reach_projection (a b : List Field)
    (h : clearRequiredAll a = clearRequiredAll b) : buildJson a = buildJson b := by
  unfold buildJson
  rw [← forEachField_clearRequiredAll a, ← forEachField_clearRequiredAll b, h]

/-- Witness for C9: the flags differ at the root and one level down. -/
theorem required_does_not_reach_projection_witness :
    buildJson [Field.mk "x" "nested" true [Field.mk "y" "number" false []]] =
      buildJson [Field.mk "x" "nested" false [Field.mk "y" "number" true []]] :=
  required_does_not_reach_projection
    [Field.mk "x" "nested" true [Field.mk "y" "number" false []]]
    [Field.mk "x" "nested" false [Field.mk "y" "number" true []]] rfl

/-! ### Replacement along a path -/

theorem bubble_spec (p : List Nat) : ∀ (f old updated : Field), descend p f = some old →
    ∃ f', bubble p f updated = some f' ∧ descend p f' = some updated ∧
      (p ≠ [] → f'.key = f.key ∧ f'.type = f.type ∧ f'.required = f.required ∧
        f'.children.length = f.children.length) ∧
      (∀ q, q <+: p → q ≠ p → ∃ a a', descend q f = some a ∧ descend q f' = some a' ∧
        a'.key = a.key ∧ a'.type = a.type ∧ a'.required = a.required ∧
        a'.children.length = a.children.length) ∧
      (∀ q, ¬ q <+: p → ¬ p <+: q → descend q f' = descend q f) := by
  induction p with
  | nil =>
    intro f old updated _
    refine ⟨updated, rfl, rfl, fun h => absurd rfl h, ?_, ?_⟩
    · intro q hq hne
      exact absurd (List.prefix_nil.1 hq) hne
    · intro q _ h2
      exact absurd (List.nil_prefix) h2
  | cons i p ih =>
    intro f old updated hold
    simp only [descend] at hold
    cases hc : f.children[i]? with
    | none => simp [hc] at hold
    | some c =>
      rw [hc] at hold
      simp only at hold
      obtain ⟨c', hb, hd, _, hanc, hframe⟩ := ih c old updated hold
      have hi : i < f.children.length := (List.getElem?_eq_some_iff.1 hc).1
      have hset : (updateChild f i c').children[i]? = some c' := by
        simp [updateChild, hi]
      refine ⟨updateChild f i c', ?_, ?_, ?_, ?_, ?_⟩
      · simp [bubble, hc, hb]
      · simp only [descend, hset]
        exact hd
      · intro _
        exact ⟨rfl, rfl, rfl, by simp [updateChild]⟩
      · intro q hq hne
        cases q with
        | nil =>
          exact ⟨f, updateChild f i c', rfl, rfl, rfl, rfl, rfl, by simp [updateChild]⟩
        | cons j q =>
          obtain ⟨hj, hq2⟩ := List.cons_prefix_cons.1 hq
          subst hj
          have hne2 : q ≠ p := fun h => hne (by rw [h])
          obtain ⟨a, a', h1, h2, h3⟩ := hanc q hq2 hne2
          refine ⟨a, a', ?_, ?_, h3⟩
          · simp only [descend, hc]
            exact h1
          · simp only [descend, hset]
            exact h2
      · intro q h1 h2
        cases q with
        | nil => exact absurd List.nil_prefix h1
        | cons j q =>
          by_cases hj : j = i
          · subst hj
            have h1' : ¬ q <+: p := fun h => h1 (List.cons_prefix_cons.2 ⟨rfl, h⟩)
            have h2' : ¬ p <+: q := fun h => h2 (List.cons_prefix_cons.2 ⟨rfl, h⟩)
            simp only [descend, hset, hc]
            exact hframe q h1' h2'
          · have : (updateChild f i c').children[j]? = f.children[j]? := by
              simp only [updateChild, children_mk]
              exact List.getElem?_set_ne (Ne.symm hj)
            simp only [descend, this]

/-- The root sequence seen as the children of a card above it. -/
theorem fieldAt?_eq_descend (fields : List Field) (p : List Nat) (hp : p ≠ []) :
    fieldAt? fields p = descend p (Field.mk "" "nested" false fields) := by
  cases p with
  | nil => exact absurd rfl hp
  | cons i p => rfl

theorem replaceAt_eq_bubble (fields : List Field) (p : List Nat) (updated : Field)
    (hp : p ≠ []) :
    replaceAt fields p updated =
      (bubble p (Field.mk "" "nested" false fields) updated).map Field.children := by
  cases p with
  | nil => exact absurd rfl hp
  | cons i p =>
    simp only [replaceAt, bubble, children_mk]
    cases fields[i]? with
    | none => rfl
    | some f =>
      simp only
      cases bubble p f updated with
      | none => rfl
      | some g => rfl

/-- C5: for every tree and every non-empty path `p` of in-bounds indices, replacing the
field at `p` through the callback chain (`updateField` at the root index, `updateChild`
at every deeper index) yields a tree whose field at `p` is the replacement, in which the
root sequence and the children of every ancestor keep their length, every ancestor keeps
its `key`, `type` and `required`, and the field at every path that is neither a prefix
of `p` nor below `p` is what it was before. -/
theorem replace_along_path (fields : List Field) (p : List Nat) (old updated : Field)
    (hp : fieldAt? fields p = some old) :
    ∃ fields', replaceAt fields p updated = some fields' ∧
      fieldAt? fields' p = some updated ∧
      fields'.length = fields.length ∧
      (∀ q, q ≠ [] → q <+: p → q ≠ p →
        ∃ a a', fieldAt? fields q = some a ∧ fieldAt? fields' q = some a' ∧
          a'.key = a.key ∧ a'.type = a.type ∧ a'.required = a.required ∧
          a'.children.length = a.children.length) ∧
      (∀ q, ¬ q <+: p → ¬ p <+: q → fieldAt? fields' q = fieldAt? fields q) := by
  have hne : p ≠ [] := by
    rintro rfl
    simp [fieldAt?] at hp
  rw [fieldAt?_eq_descend fields p hne] at hp
  obtain ⟨r, hb, hd, hkeep, hanc, hframe⟩ :=
    bubble_spec p (Field.mk "" "nested" false fields) old updated hp
  obtain ⟨hk, ht, hq, hlen⟩ := hkeep hne
  have hr : Field.mk "" "nested" false r.children = r := by
    cases r with
    | mk k t q c =>
      simp only [key_mk, type_mk, required_mk] at hk ht hq
      rw [hk, ht, hq]
      rfl
  have hat : ∀ q, q ≠ [] → fieldAt? r.children q = descend q r := by
    intro q hq0
    rw [fieldAt?_eq_descend _ q hq0, hr]
  refine ⟨r.children, ?_, ?_, ?_, ?_, ?_⟩
  · rw [replaceAt_eq_bubble fields p updated hne, hb]
    rfl
  · rw [hat p hne]
    exact hd
  · simpa using hlen
  · intro q hq0 hpre hqp
    obtain ⟨a, a', h1, h2, h3⟩ := hanc q hpre hqp
    exact ⟨a, a', by rw [fieldAt?_eq_descend _ q hq0]; exact h1, by rw [hat q hq0]; exact h2, h3⟩
  · intro q h1 h2
    have hq0 : q ≠ [] := by
      rintro rfl
      exact h1 List.nil_prefix
    rw [hat q hq0, fieldAt?_eq_descend _ q hq0]
    exact hframe q h1 h2

/-- Witness for C5: the grandchild at path 0, 1, 0 of a tree with two root fields is
replaced. -/
theorem replace_along_path_witness :
    ∃ fields', replaceAt
        [Field.mk "a" "nested" false [Field.mk "b" "string" true [],
          Field.mk "c" "nested" false [Field.mk "d" "number" false []]],
         Field.mk "e" "string" false []] [0, 1, 0] (Field.mk "z" "string" true [])
        = some fields' ∧
      fieldAt? fields' [0, 1, 0] = some (Field.mk "z" "string" true []) ∧
      fields'.length = 2 :=
  (replace_along_path
      [Field.mk "a" "nested" false [Field.mk "b" "string" true [],
          Field.mk "c" "nested" false [Field.mk "d" "number" false []]],
       Field.mk "e" "string" false []] [0, 1, 0] (Field.mk "d" "number" false [])
      (Field.mk "z" "string" true []) rfl).imp fun _ h => ⟨h.1, h.2.1, h.2.2.1⟩

/-! ### The invariant of the form -/

theorem allTidy_iff (l : List Field) : allTidy l = true ↔ ∀ f ∈ l, f.tidy = true := by
  induction l with
  | nil => simp [allTidy]
  | cons f l ih => simp [allTidy, ih]

theorem tidy_mk (k t : String) (q : Bool) (c : List Field) :
    (Field.mk k t q c).tidy = true ↔ (t = "nested" ∨ c = []) ∧ allTidy c = true := by
  simp [Field.tidy]

theorem tidy_iff (f : Field) :
    f.tidy = true ↔ (f.type = "nested" ∨ f.children = []) ∧ allTidy f.children = true := by
  cases f
  exact tidy_mk _ _ _ _

theorem allTidy_set (l : List Field) (i : Nat) (u : Field) (hl : allTidy l = true)
    (hu : u.tidy = true) : allTidy (l.set i u) = true := by
  rw [allTidy_iff] at hl ⊢
  intro f hf
  rcases List.mem_or_eq_of_mem_set hf with h | h
  · exact hl f h
  · exact h ▸ hu

theorem allTidy_eraseIdx (l : List Field) (i : Nat) (hl : allTidy l = true) :
    allTidy (l.eraseIdx i) = true := by
  rw [allTidy_iff] at hl ⊢
  intro f hf
  exact hl f (List.mem_of_mem_eraseIdx hf)

theorem allTidy_append_empty (l : List Field) (hl : allTidy l = true) :
    allTidy (l ++ [generateEmptyField]) = true := by
  rw [allTidy_iff] at hl ⊢
  intro f hf
  rcases List.mem_append.1 hf with h | h
  · exact hl f h
  · rw [List.mem_singleton.1 h]
    rfl

theorem tidy_of_getElem? (l : List Field) (i : Nat) (f : Field) (hl : allTidy l = true)
    (h : l[i]? = some f) : f.tidy = true :=
  (allTidy_iff l).1 hl f (List.getElem?_mem h)

theorem tidy_handleChange (f : Field) (change : Change) (hf : f.tidy = true) :
    (handleChange f change).tidy = true := by
  rw [tidy_iff] at hf
  cases change with
  | key v => exact (tidy_mk _ _ _ _).2 hf
  | required v => exact (tidy_mk _ _ _ _).2 hf
  | type v =>
    by_cases hv : v = "nested"
    · have : handleChange f (Change.type v) = Field.mk f.key v f.required f.children := by
        simp [handleChange, spreadWith, hv]
      rw [this]
      exact (tidy_mk _ _ _ _).2 ⟨Or.inl hv, hf.2⟩
    · have : handleChange f (Change.type v) = Field.mk f.key v f.required [] := by
        simp [handleChange, spreadWith, hv]
      rw [this]
      exact (tidy_mk _ _ _ _).2 ⟨Or.inr rfl, rfl⟩

theorem tidy_addChild (f : Field) (hf : f.tidy = true) (hn : f.type = "nested") :
    (addChild f).tidy = true := by
  rw [tidy_iff] at hf
  exact (tidy_mk _ _ _ _).2 ⟨Or.inl hn, allTidy_append_empty _ hf.2⟩

theorem tidy_updateChild (f : Field) (i : Nat) (u : Field) (hf : f.tidy = true)
    (hn : f.type = "nested") (hu : u.tidy = true) : (updateChild f i u).tidy = true := by
  rw [tidy_iff] at hf
  exact (tidy_mk _ _ _ _).2 ⟨Or.inl hn, allTidy_set _ _ _ hf.2 hu⟩

theorem tidy_deleteChild (f : Field) (i : Nat) (hf : f.tidy = true)
    (hn : f.type = "nested") : (deleteChild f i).tidy = true := by
  rw [tidy_iff] at hf
  exact (tidy_mk _ _ _ _).2 ⟨Or.inl hn, allTidy_eraseIdx _ _ hf.2⟩

theorem tidy_fieldCard (p : List Nat) : ∀ (f : Field) (control : Control) (u : Field),
    f.tidy = true → fieldCard p f control = some (Emit.onChange u) → u.tidy = true := by
  induction p with
  | nil =>
    intro f control u hf h
    cases control with
    | input change =>
      simp only [fieldCard, press] at h
      split at h
      · simp only [Option.some.injEq, Emit.onChange.injEq] at h
        exact h ▸ tidy_handleChange f change hf
      · simp at h
    | addNested =>
      simp only [fieldCard, press] at h
      split at h
      · rename_i hn
        simp only [Option.some.injEq, Emit.onChange.injEq] at h
        exact h ▸ tidy_addChild f hf hn
      · simp at h
    | delete => simp [fieldCard, press] at h
  | cons i p ih =>
    intro f control u hf h
    simp only [fieldCard] at h
    split at h
    · rename_i hn
      cases hc : f.children[i]? with
      | none => simp [hc] at h
      | some c =>
        have hct : c.tidy = true := tidy_of_getElem? _ _ _ ((tidy_iff f).1 hf).2 hc
        rw [hc] at h
        simp only at h
        cases he : fieldCard p c control with
        | none => simp [he] at h
        | some e =>
          rw [he] at h
          cases e with
          | onChange w =>
            simp only [Option.some.injEq, Emit.onChange.injEq] at h
            exact h ▸ tidy_updateChild f i w hf hn (ih c control w hct he)
          | onDelete =>
            simp only [Option.some.injEq, Emit.onChange.injEq] at h
            exact h ▸ tidy_deleteChild f i hf hn
    · simp at h

theorem allTidy_dispatch (fields fields' : List Field) (event : UserEvent)
    (hf : allTidy fields = true) (h : dispatch fields event = some fields') :
    allTidy fields' = true := by
  cases event with
  | addField =>
    simp only [dispatch, Option.some.injEq] at h
    exact h ▸ allTidy_append_empty fields hf
  | control path control =>
    cases path with
    | nil => simp [dispatch] at h
    | cons i p =>
      simp only [dispatch] at h
      cases hc : fields[i]? with
      | none => simp [hc] at h
      | some c =>
        rw [hc] at h
        simp only at h
        cases he : fieldCard p c control with
        | none => simp [he] at h
        | some e =>
          rw [he] at h
          cases e with
          | onChange w =>
            simp only [Option.some.injEq] at h
            exact h ▸ allTidy_set fields i w hf
              (tidy_fieldCard p c control w (tidy_of_getElem? _ _ _ hf hc) he)
          | onDelete =>
            simp only [Option.some.injEq] at h
            exact h ▸ allTidy_eraseIdx fields i hf

theorem allTidy_of_reachable (fields : List Field) (h : Reachable fields) :
    allTidy fields = true := by
  induction h with
  | init => rfl
  | step a b event _ hstep ih => exact allTidy_dispatch a b event ih hstep

theorem tidy_descend (p : List Nat) : ∀ (f g : Field), f.tidy = true →
    descend p f = some g → g.tidy = true := by
  induction p with
  | nil =>
    intro f g hf h
    simp only [descend, Option.some.injEq] at h
    exact h ▸ hf
  | cons i p ih =>
    intro f g hf h
    simp only [descend] at h
    cases hc : f.children[i]? with
    | none => simp [hc] at h
    | some c =>
      rw [hc] at h
      exact ih c g (tidy_of_getElem? _ _ _ ((tidy_iff f).1 hf).2 hc) h

/-- C10: in every tree the form can reach from `[generateEmptyField()]`, every field at
every depth whose type is not "nested" has an empty children list. -/
theorem reachable_fields_are_tidy (fields : List Field) (hreach : Reachable fields)
    (p : List Nat) (f : Field) (hat : fieldAt? fields p = some f)
    (htype : f.type ≠ "nested") : f.children = [] := by
  have hall := allTidy_of_reachable fields hreach
  cases p with
  | nil => simp [fieldAt?] at hat
  | cons i p =>
    simp only [fieldAt?] at hat
    cases hc : fields[i]? with
    | none => simp [hc] at hat
    | some c =>
      rw [hc] at hat
      have hf := tidy_descend p c f (tidy_of_getElem? _ _ _ hall hc) hat
      rcases ((tidy_iff f).1 hf).1 with h | h
      · exact absurd h htype
      · exact h

/-- Witness for C10: the user makes the first field nested, adds two children, names the
second one "a", gives it the type "nested", adds a child to it and sets its type back to
"number"; the child at path 0, 1 of the tree reached has no children. -/
theorem reachable_fields_are_tidy_witness :
    Reachable [Field.mk "" "nested" false
      [Field.mk "" "string" false [], Field.mk "a" "number" false []]] ∧
    (Field.mk "a" "number" false []).children = [] :=
  have hreach : Reachable [Field.mk "" "nested" false
      [Field.mk "" "string" false [], Field.mk "a" "number" false []]] :=
    Reachable.step _ _ (UserEvent.control [0, 1] (Control.input (Change.type "number")))
      (Reachable.step _ _ (UserEvent.control [0, 1] Control.addNested)
        (Reachable.step _ _ (UserEvent.control [0, 1] (Control.input (Change.type "nested")))
          (Reachable.step _ _ (UserEvent.control [0, 1] (Control.input (Change.key "a")))
            (Reachable.step _ _ (UserEvent.control [0] Control.addNested)
              (Reachable.step _ _ (UserEvent.control [0] Control.addNested)
                (Reachable.step _ _
                  (UserEvent.control [0] (Control.input (Change.type "nested")))
                  Reachable.init rfl)
                rfl)
              rfl)
            rfl)
          rfl)
        rfl)
      rfl
  ⟨hreach, reachable_fields_are_tidy _ hreach [0, 1] (Field.mk "a" "number" false []) rfl
    (by decide)⟩

end DynamicForm
